import Mathlib

/-!
# Verification of the cosmos-data-platform run-execution engine

Shallow embedding of the management-plane run-execution engine of the
`jack1981/cosmos-data-platform` repository, together with proofs of the
behavioural claims about it.

Embedded components (Python source → Lean definitions):

* `app/services/dataset_executor.py` — `_topological_order` (Kahn's algorithm
  over the declared stages and edges) and the data-flow loop of
  `run_dataset_pipeline`.
* `app/schemas/pipeline_spec.py` — `PipelineSpecDocument.validate_linear_chain`.
* `app/services/runner.py` — `PipelineRunnerService.submit_run`,
  `request_stop`, and the control flow of `_execute_run`.
* `app/services/log_store.py` — `RunLogStore.append` / `get_since`.
* `app/services/stage_registry.py` — the result coercion performed by the
  executor closure built in `build_stage_executor`.

Stage identifiers are Python `str` values and are modelled as `String`.
Python `dict`s keyed by stage id preserve insertion order; they are modelled
either as association lists (when the order matters) or as functions.
-/

/-- An edge of a pipeline graph (`PipelineEdge` in `pipeline_spec.py`):
the ordered pair `(source, target)` of stage ids. -/
structure PipelineEdge where
  source : String
  target : String
deriving DecidableEq, Repr

/-- The part of a `PipelineSpecDocument` that the DAG resolver consumes:
the declared stage ids (in declaration order) and the declared edges
(in declaration order). -/
structure GraphSpec where
  stages : List String
  edges : List PipelineEdge
deriving DecidableEq, Repr

/-- `adjacency[v]` as built by `_topological_order`: the loop
`for edge in spec.edges: adjacency[edge.source].append(edge.target)` appends
targets in edge-declaration order, which is exactly the filter/map below. -/
def targetsFrom (edges : List PipelineEdge) (v : String) : List String :=
  (edges.filter (fun e => e.source == v)).map (fun e => e.target)

/-- `incoming[v]` as built by `_topological_order`: sources of the edges into
`v`, in edge-declaration order. -/
def sourcesInto (edges : List PipelineEdge) (v : String) : List String :=
  (edges.filter (fun e => e.target == v)).map (fun e => e.source)

/-- `indegree[v]` as built by `_topological_order` (a Python `int`, so the
working copy decremented by the loop may go negative; hence `Int`). -/
def indegreeOf (edges : List PipelineEdge) (v : String) : Int :=
  ((edges.filter (fun e => e.target == v)).length : Int)

/-- One pop of Kahn's algorithm, inner loop of `_topological_order`:
`for nxt in adjacency[node]: local_indegree[nxt] -= 1;
 if local_indegree[nxt] == 0: queue.append(nxt)`.
Returns the updated indegree map and the newly enqueued nodes in the order
they were appended to the queue. -/
def decrEnqueue : List String → (String → Int) → ((String → Int) × List String)
  | [], ind => (ind, [])
  | n :: ns, ind =>
    if ind n - 1 = 0 then
      ((decrEnqueue ns (fun v => if v = n then ind v - 1 else ind v)).1,
        n :: (decrEnqueue ns (fun v => if v = n then ind v - 1 else ind v)).2)
    else
      decrEnqueue ns (fun v => if v = n then ind v - 1 else ind v)

/-- The `while queue:` loop of `_topological_order`. The queue is popped from
the left and newly zeroed nodes are appended on the right, exactly as with
Python's `deque`. `fuel` bounds the iteration count so the function is total;
each iteration pops one queue element, and at most
`|stages| + |edges|` elements are ever enqueued (every enqueue is either an
initially zero-indegree stage or follows one of the `|edges|` decrements), so
the fuel chosen by `topological_order` is never exhausted. -/
def kahnLoop (adj : String → List String) :
    Nat → List String → List String → (String → Int) → List String
  | 0, _, order, _ => order
  | _ + 1, [], order, _ => order
  | fuel + 1, q :: rest, order, ind =>
    let step := decrEnqueue (adj q) ind
    kahnLoop adj fuel (rest ++ step.2) (order ++ [q]) step.1

/-- The two exceptions `_topological_order` can raise: a `KeyError` while
building the adjacency/incoming/indegree dicts when an edge endpoint is not a
declared stage id, and the explicit
`ValueError("Dataset pipeline graph is not acyclic")`. -/
inductive TopoError where
  | unknownEdgeEndpoint
  | cyclic
deriving DecidableEq, Repr

/-- `_topological_order` from `app/services/dataset_executor.py`: Kahn's
algorithm seeded with the zero-indegree stages in stage-declaration order,
returning `(order, adjacency, incoming)`, or the raised error. -/
def kahnOrder (spec : GraphSpec) : List String :=
  kahnLoop (targetsFrom spec.edges) (spec.stages.length + spec.edges.length + 1)
    (spec.stages.filter (fun v => indegreeOf spec.edges v == 0)) [] (indegreeOf spec.edges)

def topological_order (spec : GraphSpec) :
    Except TopoError (List String × (String → List String) × (String → List String)) :=
  if spec.edges.all (fun e => spec.stages.contains e.source && spec.stages.contains e.target) then
    if (kahnOrder spec).length = spec.stages.length then
      Except.ok (kahnOrder spec, targetsFrom spec.edges, sourcesInto spec.edges)
    else
      Except.error TopoError.cyclic
  else
    Except.error TopoError.unknownEdgeEndpoint

/-! ## Generic list lemmas used by the Kahn-invariant proofs -/

theorem length_filter_mono {α : Type} {l : List α} {A B : α → Bool}
    (h : ∀ a ∈ l, A a = true → B a = true) :
    (l.filter A).length ≤ (l.filter B).length := by
  induction l with
  | nil => simp
  | cons a l ih =>
    have hA := h a (by simp)
    have ihl := ih (fun x hx => h x (by simp [hx]))
    rw [List.filter_cons, List.filter_cons]
    cases hA' : A a with
    | true => simp [hA', hA hA']; omega
    | false =>
      cases hB' : B a with
      | true => simp [hA', hB']; omega
      | false => simpa [hA', hB'] using ihl

theorem all_of_length_filter_eq {α : Type} {l : List α} {A B : α → Bool}
    (himp : ∀ a ∈ l, A a = true → B a = true)
    (hlen : (l.filter B).length ≤ (l.filter A).length) :
    ∀ a ∈ l, B a = true → A a = true := by
  induction l with
  | nil => simp
  | cons a l ih =>
    have hmono : (l.filter A).length ≤ (l.filter B).length :=
      length_filter_mono (fun x hx => himp x (by simp [hx]))
    intro x hx hBx
    rw [List.filter_cons, List.filter_cons] at hlen
    cases hA' : A a with
    | true =>
      rcases List.mem_cons.mp hx with hxa | hxl
      · subst hxa; exact hA'
      · have hB' := himp a (by simp) hA'
        simp [hA', hB'] at hlen
        exact ih (fun y hy => himp y (by simp [hy])) (by omega) x hxl hBx
    | false =>
      cases hB' : B a with
      | true =>
        -- impossible: the B-filter is strictly longer than the A-filter
        simp [hA', hB'] at hlen
        omega
      | false =>
        rcases List.mem_cons.mp hx with hxa | hxl
        · subst hxa; rw [hBx] at hB'; cases hB'
        · simp [hA', hB'] at hlen
          exact ih (fun y hy => himp y (by simp [hy])) (by omega) x hxl hBx

theorem length_filter_or_split {α : Type} {l : List α} {A B C : α → Bool}
    (h : ∀ a ∈ l, (A a = (B a || C a)) ∧ ¬(B a = true ∧ C a = true)) :
    (l.filter A).length = (l.filter B).length + (l.filter C).length := by
  induction l with
  | nil => simp
  | cons a l ih =>
    have ha := h a (by simp)
    have ihl := ih (fun x hx => h x (by simp [hx]))
    rw [List.filter_cons, List.filter_cons, List.filter_cons]
    cases hB : B a with
    | true =>
      have hC : C a = false := by
        cases hC : C a with
        | true => exact absurd ⟨hB, hC⟩ ha.2
        | false => rfl
      simp [ha.1, hB, hC, ihl]; omega
    | false =>
      cases hC : C a with
      | true => simp [ha.1, hB, hC, ihl]; omega
      | false => simp [ha.1, hB, hC, ihl]

/-! ## Lemmas about one Kahn step (`decrEnqueue`) -/

theorem decrEnqueue_fst (ns : List String) :
    ∀ (ind : String → Int) (v : String),
      (decrEnqueue ns ind).1 v = ind v - (ns.count v : Int) := by
  induction ns with
  | nil => intro ind v; simp [decrEnqueue]
  | cons n ns ih =>
    intro ind v
    have hrec := ih (fun w => if w = n then ind w - 1 else ind w) v
    by_cases hv : v = n
    · subst hv
      simp only [if_pos rfl] at hrec
      simp only [decrEnqueue]
      split <;> simp only [hrec, List.count_cons] <;> simp <;> omega
    · simp only [if_neg hv] at hrec
      simp only [decrEnqueue]
      split <;> simp only [hrec, List.count_cons] <;>
        simp [Ne.symm hv]

theorem decrEnqueue_mem (ns : List String) :
    ∀ (ind : String → Int) (v : String),
      v ∈ (decrEnqueue ns ind).2 ↔ 1 ≤ ind v ∧ ind v ≤ (ns.count v : Int) := by
  induction ns with
  | nil =>
    intro ind v
    simp only [decrEnqueue, List.not_mem_nil, List.count_nil, false_iff]
    omega
  | cons n ns ih =>
    intro ind v
    have hrec := ih (fun w => if w = n then ind w - 1 else ind w) v
    by_cases hv : v = n
    · subst hv
      simp only [if_pos rfl] at hrec
      simp only [decrEnqueue]
      split
      · rename_i hz
        rw [List.count_cons_self]
        constructor
        · intro _
          push_cast
          omega
        · intro _
          exact List.mem_cons_self _ _
      · rename_i hz
        rw [hrec, List.count_cons_self]
        push_cast
        omega
    · simp only [if_neg hv] at hrec
      simp only [decrEnqueue]
      split
      · rw [List.mem_cons, hrec, List.count_cons_of_ne hv]
        constructor
        · rintro (h | h)
          · exact absurd h hv
          · exact h
        · intro h
          exact Or.inr h
      · rw [hrec, List.count_cons_of_ne hv]

theorem decrEnqueue_nodup (ns : List String) :
    ∀ (ind : String → Int), (decrEnqueue ns ind).2.Nodup := by
  induction ns with
  | nil => intro ind; simp [decrEnqueue]
  | cons n ns ih =>
    intro ind
    simp only [decrEnqueue]
    split
    · rename_i hcond
      refine List.nodup_cons.mpr ⟨?_, ih _⟩
      intro hmem
      have hmem2 := (decrEnqueue_mem ns (fun w => if w = n then ind w - 1 else ind w) n).mp hmem
      have h1 : (1 : Int) ≤ ind n - 1 := by simpa using hmem2.1
      omega
    · exact ih _

theorem decrEnqueue_subset (ns : List String) (ind : String → Int) (v : String)
    (h : v ∈ (decrEnqueue ns ind).2) : v ∈ ns := by
  have := (decrEnqueue_mem ns ind v).mp h
  have hcount : 0 < ns.count v := by omega
  exact List.count_pos_iff.mp hcount

/-! ## Invariants of Kahn's algorithm as implemented by `_topological_order` -/

theorem targetsFrom_cons (e : PipelineEdge) (es : List PipelineEdge) (q : String) :
    targetsFrom (e :: es) q =
      if e.source = q then e.target :: targetsFrom es q else targetsFrom es q := by
  simp only [targetsFrom, List.filter_cons]
  split
  · rename_i h
    simp only [beq_iff_eq] at h
    simp [h]
  · rename_i h
    simp only [beq_iff_eq] at h
    simp [h]

theorem count_targetsFrom (edges : List PipelineEdge) (q v : String) :
    (targetsFrom edges q).count v
      = (edges.filter (fun e => e.source == q && e.target == v)).length := by
  induction edges with
  | nil => rfl
  | cons e es ih =>
    rw [targetsFrom_cons, List.filter_cons]
    by_cases hsq : e.source = q
    · by_cases htv : e.target = v
      · simp [hsq, htv, List.count_cons_self, ih]
      · rw [if_pos hsq, List.count_cons_of_ne (fun h => htv h.symm)]
        simp [hsq, htv, ih]
    · simp [hsq, ih]

/-- The number of edges into `v` whose source stage has already been emitted
into `order`.  This is the number of times the inner loop of
`_topological_order` has decremented `local_indegree[v]` so far. -/
def procInto (edges : List PipelineEdge) (order : List String) (v : String) : Nat :=
  (edges.filter (fun e => decide (e.source ∈ order) && e.target == v)).length

theorem procInto_nil (edges : List PipelineEdge) (v : String) :
    procInto edges [] v = 0 := by
  unfold procInto
  induction edges with
  | nil => rfl
  | cons e es ih => simp [List.filter_cons, ih]

theorem procInto_snoc (edges : List PipelineEdge) (order : List String) (q v : String)
    (hq : q ∉ order) :
    procInto edges (order ++ [q]) v
      = procInto edges order v
        + (edges.filter (fun e => e.source == q && e.target == v)).length := by
  unfold procInto
  apply length_filter_or_split
  intro e _
  constructor
  · by_cases h1 : e.source ∈ order <;> by_cases h2 : e.source = q <;>
      by_cases h3 : e.target = v <;> simp [h1, h2, h3, List.mem_append]
  · rintro ⟨hB, hC⟩
    simp only [Bool.and_eq_true, decide_eq_true_eq, beq_iff_eq] at hB hC
    rw [hC.1] at hB
    exact hq hB.1

theorem mem_targetsFrom {edges : List PipelineEdge} {q v : String}
    (h : v ∈ targetsFrom edges q) : ∃ e ∈ edges, e.source = q ∧ e.target = v := by
  unfold targetsFrom at h
  obtain ⟨e, he, hev⟩ := List.mem_map.mp h
  have hm := List.mem_filter.mp he
  exact ⟨e, hm.1, by simpa using hm.2, hev⟩

/-- Loop invariant of the `while queue:` loop of `_topological_order`, for
state `(queue, order, local_indegree)`:
the working indegree equals the initial indegree minus the decrements from
already-emitted sources; no stage is duplicated across `order` and `queue`;
all tracked ids are declared stages; tracked ids have non-positive working
indegree; and edges whose target is already emitted have their source emitted
strictly earlier. -/
def KahnInv (stages : List String) (edges : List PipelineEdge)
    (queue order : List String) (ind : String → Int) : Prop :=
  (∀ v, ind v = indegreeOf edges v - (procInto edges order v : Int)) ∧
  (order ++ queue).Nodup ∧
  (∀ v ∈ order ++ queue, v ∈ stages) ∧
  (∀ v ∈ order ++ queue, ind v ≤ 0) ∧
  (∀ e ∈ edges, e.target ∈ order →
    e.source ∈ order ∧ order.indexOf e.source < order.indexOf e.target)

theorem KahnInv_init (stages : List String) (edges : List PipelineEdge)
    (hnd : stages.Nodup) :
    KahnInv stages edges
      (stages.filter (fun v => indegreeOf edges v == 0)) [] (indegreeOf edges) := by
  refine ⟨?_, ?_, ?_, ?_, ?_⟩
  · intro v
    rw [procInto_nil]
    simp
  · simpa using hnd.filter _
  · intro v hv
    simp only [List.nil_append] at hv
    exact (List.mem_filter.mp hv).1
  · intro v hv
    simp only [List.nil_append] at hv
    have h0 : indegreeOf edges v = 0 := by simpa using (List.mem_filter.mp hv).2
    omega
  · intro e _ h
    simp at h

theorem KahnInv_step (stages : List String) (edges : List PipelineEdge)
    (q : String) (rest order : List String) (ind : String → Int)
    (hwf : ∀ e ∈ edges, e.source ∈ stages ∧ e.target ∈ stages)
    (h : KahnInv stages edges (q :: rest) order ind) :
    KahnInv stages edges (rest ++ (decrEnqueue (targetsFrom edges q) ind).2)
      (order ++ [q]) (decrEnqueue (targetsFrom edges q) ind).1 := by
  obtain ⟨h1, h2, h3, h4, h5⟩ := h
  have hqnotin : q ∉ order := by
    have hd := (List.nodup_append.mp h2).2.2
    intro hq
    exact hd hq (List.mem_cons_self q rest)
  have hindq : ind q ≤ 0 := h4 q (by simp)
  have hcomplete : ∀ e ∈ edges, (e.target == q) = true →
      (decide (e.source ∈ order) && e.target == q) = true := by
    apply all_of_length_filter_eq
    · intro e _ hA
      exact (Bool.and_eq_true ..).mp hA |>.2
    · have hq1 := h1 q
      unfold indegreeOf at hq1
      unfold procInto at hq1
      omega
  have hsrc_in_order : ∀ e ∈ edges, e.target = q → e.source ∈ order := by
    intro e he htq
    have hco := hcomplete e he (by simp [htq])
    simpa using ((Bool.and_eq_true ..).mp hco).1
  have hfst : ∀ v, (decrEnqueue (targetsFrom edges q) ind).1 v
      = ind v - ((targetsFrom edges q).count v : Int) := decrEnqueue_fst _ ind
  have heq : (order ++ [q]) ++ (rest ++ (decrEnqueue (targetsFrom edges q) ind).2)
      = (order ++ q :: rest) ++ (decrEnqueue (targetsFrom edges q) ind).2 := by
    simp
  refine ⟨?_, ?_, ?_, ?_, ?_⟩
  · intro v
    rw [hfst v, h1 v, procInto_snoc edges order q v hqnotin, count_targetsFrom]
    push_cast
    ring
  · rw [heq]
    refine List.nodup_append.mpr ⟨h2, decrEnqueue_nodup _ ind, ?_⟩
    intro a ha hanew
    have hmem := (decrEnqueue_mem _ ind a).mp hanew
    have hle := h4 a ha
    omega
  · intro v hv
    rw [heq] at hv
    rcases List.mem_append.mp hv with hv1 | hv2
    · exact h3 v hv1
    · have hvt := decrEnqueue_subset _ ind v hv2
      obtain ⟨e, he, _, het⟩ := mem_targetsFrom hvt
      rw [← het]
      exact (hwf e he).2
  · intro v hv
    rw [heq] at hv
    rw [hfst v]
    rcases List.mem_append.mp hv with hv1 | hv2
    · have hle := h4 v hv1
      omega
    · have hmem := (decrEnqueue_mem _ ind v).mp hv2
      omega
  · intro e he htset
    rcases List.mem_append.mp htset with ht | ht
    · obtain ⟨hsrc, hidx⟩ := h5 e he ht
      refine ⟨List.mem_append_left _ hsrc, ?_⟩
      rw [List.indexOf_append_of_mem hsrc, List.indexOf_append_of_mem ht]
      exact hidx
    · have htq : e.target = q := by simpa using ht
      have hsrc := hsrc_in_order e he htq
      refine ⟨List.mem_append_left _ hsrc, ?_⟩
      rw [List.indexOf_append_of_mem hsrc]
      have hslt : order.indexOf e.source < order.length := List.indexOf_lt_length.mpr hsrc
      have hqidx : (order ++ [q]).indexOf e.target = order.length := by
        rw [htq, List.indexOf_append_of_not_mem hqnotin]
        simp
      omega

theorem kahnLoop_inv (stages : List String) (edges : List PipelineEdge)
    (hwf : ∀ e ∈ edges, e.source ∈ stages ∧ e.target ∈ stages) :
    ∀ (fuel : Nat) (queue order : List String) (ind : String → Int),
      KahnInv stages edges queue order ind →
      (kahnLoop (targetsFrom edges) fuel queue order ind).Nodup ∧
      (∀ v ∈ kahnLoop (targetsFrom edges) fuel queue order ind, v ∈ stages) ∧
      (∀ e ∈ edges, e.target ∈ kahnLoop (targetsFrom edges) fuel queue order ind →
        e.source ∈ kahnLoop (targetsFrom edges) fuel queue order ind ∧
        (kahnLoop (targetsFrom edges) fuel queue order ind).indexOf e.source <
          (kahnLoop (targetsFrom edges) fuel queue order ind).indexOf e.target) := by
  intro fuel
  induction fuel with
  | zero =>
    intro queue order ind hinv
    obtain ⟨_, h2, h3, _, h5⟩ := hinv
    exact ⟨h2.of_append_left, fun v hv => h3 v (List.mem_append_left _ hv),
      fun e he ht => h5 e he ht⟩
  | succ n ih =>
    intro queue order ind hinv
    cases queue with
    | nil =>
      obtain ⟨_, h2, h3, _, h5⟩ := hinv
      exact ⟨h2.of_append_left, fun v hv => h3 v (List.mem_append_left _ hv),
        fun e he ht => h5 e he ht⟩
    | cons q rest =>
      simp only [kahnLoop]
      exact ih _ _ _ (KahnInv_step stages edges q rest order ind hwf hinv)

theorem topological_order_sound (spec : GraphSpec) (hnd : spec.stages.Nodup)
    (order : List String) (adj inc : String → List String)
    (hok : topological_order spec = Except.ok (order, adj, inc)) :
    (∀ s, s ∈ order ↔ s ∈ spec.stages) ∧ order.Nodup ∧
    (∀ s ∈ spec.stages, order.count s = 1) ∧
    (∀ e ∈ spec.edges, e.source ∈ order ∧ e.target ∈ order ∧
      order.indexOf e.source < order.indexOf e.target) := by
  unfold topological_order at hok
  split at hok
  case isFalse => cases hok
  case isTrue hwfb =>
    split at hok
    case isFalse => cases hok
    case isTrue hlen =>
      have horder : kahnOrder spec = order := by
        have := congrArg (fun x => match x with
          | Except.ok (o, _, _) => o
          | Except.error _ => []) hok
        simpa using this
      have hwf : ∀ e ∈ spec.edges, e.source ∈ spec.stages ∧ e.target ∈ spec.stages := by
        intro e he
        have hall := List.all_eq_true.mp hwfb e he
        have h1 := ((Bool.and_eq_true ..).mp hall).1
        have h2 := ((Bool.and_eq_true ..).mp hall).2
        exact ⟨List.elem_iff.mp h1, List.elem_iff.mp h2⟩
      have hloop := kahnLoop_inv spec.stages spec.edges hwf
        (spec.stages.length + spec.edges.length + 1)
        (spec.stages.filter (fun v => indegreeOf spec.edges v == 0)) [] (indegreeOf spec.edges)
        (KahnInv_init spec.stages spec.edges hnd)
      have hko : kahnOrder spec
          = kahnLoop (targetsFrom spec.edges) (spec.stages.length + spec.edges.length + 1)
            (spec.stages.filter (fun v => indegreeOf spec.edges v == 0)) []
            (indegreeOf spec.edges) := rfl
      rw [← hko, horder] at hloop
      obtain ⟨hnodup, hsub, hedge⟩ := hloop
      rw [horder] at hlen
      have hcov : ∀ s ∈ spec.stages, s ∈ order := by
        have hsubF : order.toFinset ⊆ spec.stages.toFinset := by
          intro s hs
          exact List.mem_toFinset.mpr (hsub s (List.mem_toFinset.mp hs))
        have hcards : spec.stages.toFinset.card ≤ order.toFinset.card := by
          rw [List.toFinset_card_of_nodup hnodup, List.toFinset_card_of_nodup hnd]
          omega
        have hFeq : order.toFinset = spec.stages.toFinset :=
          Finset.eq_of_subset_of_card_le hsubF hcards
        intro s hs
        exact List.mem_toFinset.mp (hFeq ▸ List.mem_toFinset.mpr hs)
      refine ⟨fun s => ⟨hsub s, hcov s⟩, hnodup, ?_, ?_⟩
      · intro s hs
        exact List.count_eq_one_of_mem hnodup (hcov s hs)
      · intro e he
        have htmem : e.target ∈ order := hcov _ ((hwf e he).2)
        obtain ⟨hsmem, hidx⟩ := hedge e he htmem
        exact ⟨hsmem, htmem, hidx⟩

/-- C1: For every acyclic graph spec (stages plus edges over declared stage
ids), the DAG Resolver's returned execution order (`_topological_order`)
contains every stage id exactly once, and for every edge `(a, b)` the position
of `a` in the order is strictly before the position of `b`.  Acyclicity is
exactly the condition under which `_topological_order` returns instead of
raising `ValueError("Dataset pipeline graph is not acyclic")`. -/
theorem C1_resolver_order_topological (spec : GraphSpec) (hnd : spec.stages.Nodup)
    (order : List String) (adj inc : String → List String)
    (hok : topological_order spec = Except.ok (order, adj, inc)) :
    (∀ s, s ∈ order ↔ s ∈ spec.stages) ∧ order.Nodup ∧
    (∀ s ∈ spec.stages, order.count s = 1) ∧
    (∀ e ∈ spec.edges, e.source ∈ order ∧ e.target ∈ order ∧
      order.indexOf e.source < order.indexOf e.target) :=
  topological_order_sound spec hnd order adj inc hok

/-- A concrete three-stage chain used to witness C1. -/
def chainSpec : GraphSpec :=
  ⟨["s1", "s2", "s3"], [⟨"s1", "s2"⟩, ⟨"s2", "s3"⟩]⟩

theorem C1_resolver_order_topological_witness :
    chainSpec.stages.Nodup ∧
    ((∀ s, s ∈ ["s1", "s2", "s3"] ↔ s ∈ chainSpec.stages) ∧
      (["s1", "s2", "s3"] : List String).Nodup ∧
      (∀ s ∈ chainSpec.stages, (["s1", "s2", "s3"] : List String).count s = 1) ∧
      (∀ e ∈ chainSpec.edges, e.source ∈ ["s1", "s2", "s3"] ∧
        e.target ∈ ["s1", "s2", "s3"] ∧
        (["s1", "s2", "s3"] : List String).indexOf e.source <
          (["s1", "s2", "s3"] : List String).indexOf e.target)) :=
  ⟨by decide,
    C1_resolver_order_topological chainSpec (by decide) ["s1", "s2", "s3"]
      (targetsFrom chainSpec.edges) (sourcesInto chainSpec.edges) rfl⟩

/-! ## The dataset graph executor (`run_dataset_pipeline`) -/

/-- `DatasetRef` from `app/services/dataset_types.py`: an immutable handle
`{uri, format, metadata}` for a materialized stage output. -/
structure DatasetRef where
  uri : String
  format : String
  metadata : List (String × String)
deriving DecidableEq, Repr

/-- Result of calling `stage.run(ctx, inputs)` on a stage instance: either a
`DatasetRef` or any other Python value (which fails the executor's
`isinstance(output_ref, DatasetRef)` check). -/
inductive StageRunResult where
  | ref (r : DatasetRef)
  | notRef
deriving DecidableEq, Repr

/-- One entry of the `metrics` list built by `run_dataset_pipeline`.
The wall-clock `duration_seconds` value is real time and is not modelled. -/
structure StageMetric where
  stage_id : String
  input_count : Nat
  output_uri : String
  output_format : String
deriving DecidableEq, Repr

/-- `DatasetPipelineResult` from `dataset_executor.py`. -/
structure DatasetPipelineResult where
  output_ref : DatasetRef
  stage_metrics : List StageMetric
  execution_order : List String
deriving DecidableEq, Repr

/-- The exceptions `run_dataset_pipeline` can raise after context setup. -/
inductive ExecError where
  | topo (e : TopoError)
  | missingUpstream (s : String)
  | notDatasetRef (s : String)
  | ambiguousLeaf
  | missingLeafOutput
deriving DecidableEq, Repr

/-- Helper for `dictKeys`: walk the keys left to right, keeping the first
occurrence of each key and skipping keys already seen. -/
def dictKeysAux : List String → List String → List String
  | [], _ => []
  | u :: us, seen =>
    if seen.contains u then dictKeysAux us seen else u :: dictKeysAux us (u :: seen)

/-- First-occurrence key list of a Python dict built by a comprehension over
the given (possibly repeating) keys: later duplicates collapse onto the first
insertion position. -/
def dictKeys (l : List String) : List String := dictKeysAux l []

/-- Python dict lookup `outputs[u]` on the insertion-ordered association list
of stage outputs (keys are written at most once per run, so first-match lookup
coincides with dict lookup). -/
def lookupOut : List (String × DatasetRef) → String → Option DatasetRef
  | [], _ => none
  | (k, r) :: rest, u => if k = u then some r else lookupOut rest u

/-- `stage_inputs = {u: outputs[u] for u in upstream_ids}`: entries in
first-insertion order; `none` models the `KeyError` if an upstream output is
missing. -/
def gatherInputs (outputs : List (String × DatasetRef)) :
    List String → Option (List (String × DatasetRef))
  | [] => some []
  | u :: us =>
    match lookupOut outputs u, gatherInputs outputs us with
    | some r, some rest => some ((u, r) :: rest)
    | _, _ => none

/-- State threaded through the stage loop of `run_dataset_pipeline`:
the `outputs` dict (insertion order), the `metrics` list, and — as ghost
instrumentation only — the list of `(stage_id, stage_inputs)` with which
`stage_instances[stage_id].run(ctx, stage_inputs)` was invoked, in call
order. -/
structure ExecState where
  outputs : List (String × DatasetRef)
  metrics : List StageMetric
  calls : List (String × List (String × DatasetRef))
deriving DecidableEq, Repr

/-- The `for stage_id in order:` loop of `run_dataset_pipeline`.  Each stage's
behaviour is abstracted as `runFn stage_id stage_inputs`. -/
def execLoop (runFn : String → List (String × DatasetRef) → StageRunResult)
    (incoming : String → List String) :
    List String → ExecState → Except ExecError ExecState
  | [], st => Except.ok st
  | s :: rest, st =>
    match gatherInputs st.outputs (dictKeys (incoming s)) with
    | none => Except.error (ExecError.missingUpstream s)
    | some ins =>
      match runFn s ins with
      | StageRunResult.notRef => Except.error (ExecError.notDatasetRef s)
      | StageRunResult.ref r =>
        execLoop runFn incoming rest
          { outputs := st.outputs ++ [(s, r)]
          , metrics := st.metrics ++ [⟨s, ins.length, r.uri, r.format⟩]
          , calls := st.calls ++ [(s, ins)] }

/-- `run_dataset_pipeline` from `dataset_executor.py`, with the ghost call
trace returned alongside the result: resolve the order, run every stage in
that order feeding each one the outputs of its incoming stages, then require
exactly one out-degree-0 stage (iterating the adjacency dict keys, i.e. the
stages in declaration order) and return its output with the metrics and the
execution order. -/
def run_dataset_pipeline_instrumented (spec : GraphSpec)
    (runFn : String → List (String × DatasetRef) → StageRunResult) :
    Except ExecError (DatasetPipelineResult × List (String × List (String × DatasetRef))) :=
  match topological_order spec with
  | Except.error e => Except.error (ExecError.topo e)
  | Except.ok (order, adjacency, incoming) =>
    match execLoop runFn incoming order ⟨[], [], []⟩ with
    | Except.error e => Except.error e
    | Except.ok st =>
      match spec.stages.filter (fun s => (adjacency s).isEmpty) with
      | [leaf] =>
        match lookupOut st.outputs leaf with
        | some out => Except.ok (⟨out, st.metrics, order⟩, st.calls)
        | none => Except.error ExecError.missingLeafOutput
      | _ => Except.error ExecError.ambiguousLeaf

/-- `run_dataset_pipeline` without the ghost trace. -/
def run_dataset_pipeline (spec : GraphSpec)
    (runFn : String → List (String × DatasetRef) → StageRunResult) :
    Except ExecError DatasetPipelineResult :=
  (run_dataset_pipeline_instrumented spec runFn).map Prod.fst

/-! ## Lemmas about the executor loop -/

theorem lookupOut_append_left {l1 l2 : List (String × DatasetRef)} {u : String}
    {r : DatasetRef} (h : lookupOut l1 u = some r) :
    lookupOut (l1 ++ l2) u = some r := by
  induction l1 with
  | nil => simp [lookupOut] at h
  | cons p rest ih =>
    obtain ⟨k, v⟩ := p
    simp only [lookupOut, List.cons_append] at h ⊢
    split at h
    · rename_i hk
      rw [if_pos hk]
      exact h
    · rename_i hk
      rw [if_neg hk]
      exact ih h

theorem lookupOut_mem {l : List (String × DatasetRef)} {u : String} {r : DatasetRef}
    (h : lookupOut l u = some r) : (u, r) ∈ l := by
  induction l with
  | nil => simp [lookupOut] at h
  | cons p rest ih =>
    obtain ⟨k, v⟩ := p
    simp only [lookupOut] at h
    split at h
    · rename_i hk
      injection h with h
      subst hk h
      simp
    · exact List.mem_cons_of_mem _ (ih h)

theorem lookupOut_isSome_of_mem_keys {l : List (String × DatasetRef)} {u : String}
    (h : u ∈ l.map Prod.fst) : ∃ r, lookupOut l u = some r := by
  induction l with
  | nil => simp at h
  | cons p rest ih =>
    obtain ⟨k, v⟩ := p
    by_cases hk : k = u
    · exact ⟨v, by simp [lookupOut, hk]⟩
    · have hu : u ∈ rest.map Prod.fst := by
        simp only [List.map_cons, List.mem_cons] at h
        rcases h with h | h
        · exact absurd h.symm hk
        · exact h
      obtain ⟨r, hr⟩ := ih hu
      exact ⟨r, by simp [lookupOut, hk, hr]⟩

theorem gatherInputs_some {outputs : List (String × DatasetRef)} :
    ∀ {us : List String} {ins : List (String × DatasetRef)},
      gatherInputs outputs us = some ins →
      ins.map Prod.fst = us ∧ ∀ q ∈ ins, lookupOut outputs q.1 = some q.2 := by
  intro us
  induction us with
  | nil =>
    intro ins h
    simp only [gatherInputs] at h
    injection h with h
    subst h
    simp
  | cons u us ih =>
    intro ins h
    simp only [gatherInputs] at h
    cases hlk : lookupOut outputs u with
    | none => rw [hlk] at h; cases h
    | some r =>
      rw [hlk] at h
      cases hg : gatherInputs outputs us with
      | none => rw [hg] at h; cases h
      | some rest =>
        rw [hg] at h
        injection h with h
        subst h
        obtain ⟨h1, h2⟩ := ih hg
        refine ⟨by simp [h1], ?_⟩
        intro q hq
        rcases List.mem_cons.mp hq with hq | hq
        · subst hq; exact hlk
        · exact h2 q hq

theorem execLoop_ok (runFn : String → List (String × DatasetRef) → StageRunResult)
    (incoming : String → List String) :
    ∀ (order : List String) (st0 st : ExecState),
      execLoop runFn incoming order st0 = Except.ok st →
      ∃ newOuts newMetrics newCalls,
        st.outputs = st0.outputs ++ newOuts ∧
        st.metrics = st0.metrics ++ newMetrics ∧
        st.calls = st0.calls ++ newCalls ∧
        newOuts.map Prod.fst = order ∧
        newMetrics.map StageMetric.stage_id = order ∧
        newCalls.map Prod.fst = order := by
  intro order
  induction order with
  | nil =>
    intro st0 st h
    simp only [execLoop] at h
    injection h with h
    subst h
    exact ⟨[], [], [], by simp, by simp, by simp, rfl, rfl, rfl⟩
  | cons s rest ih =>
    intro st0 st h
    simp only [execLoop] at h
    split at h
    · cases h
    · rename_i ins hg
      split at h
      · cases h
      · rename_i r hr
        obtain ⟨nO, nM, nC, hO, hM, hC, hfO, hfM, hfC⟩ := ih _ _ h
        refine ⟨(s, r) :: nO, ⟨s, ins.length, r.uri, r.format⟩ :: nM, (s, ins) :: nC,
          ?_, ?_, ?_, ?_, ?_, ?_⟩
        · simpa [List.append_assoc] using hO
        · simpa [List.append_assoc] using hM
        · simpa [List.append_assoc] using hC
        · simp [hfO]
        · simp [hfM]
        · simp [hfC]

theorem execLoop_calls (runFn : String → List (String × DatasetRef) → StageRunResult)
    (incoming : String → List String) :
    ∀ (order : List String) (st0 st : ExecState),
      execLoop runFn incoming order st0 = Except.ok st →
      ∀ p ∈ st.calls, p ∈ st0.calls ∨
        (p.1 ∈ order ∧ p.2.map Prod.fst = dictKeys (incoming p.1) ∧
          ∀ q ∈ p.2, lookupOut st.outputs q.1 = some q.2) := by
  intro order
  induction order with
  | nil =>
    intro st0 st h p hp
    simp only [execLoop] at h
    injection h with h
    subst h
    exact Or.inl hp
  | cons s rest ih =>
    intro st0 st h p hp
    simp only [execLoop] at h
    split at h
    · cases h
    · rename_i ins hg
      split at h
      · cases h
      · rename_i r hr
        rcases ih _ _ h p hp with hin | hnew
        · rcases List.mem_append.mp hin with hold | hthis
          · exact Or.inl hold
          · have hps : p = (s, ins) := by simpa using hthis
            subst hps
            refine Or.inr ⟨by simp, (gatherInputs_some hg).1, ?_⟩
            intro q hq
            have hlk := (gatherInputs_some hg).2 q hq
            obtain ⟨nO, _, _, hO, _, _, _, _, _⟩ := execLoop_ok runFn incoming rest _ _ h
            have hpre : st.outputs = st0.outputs ++ ((s, r) :: nO) := by
              simpa [List.append_assoc] using hO
            rw [hpre]
            exact lookupOut_append_left hlk
        · exact Or.inr ⟨List.mem_cons_of_mem _ hnew.1, hnew.2.1, hnew.2.2⟩

theorem execLoop_outputs (runFn : String → List (String × DatasetRef) → StageRunResult)
    (incoming : String → List String) :
    ∀ (order : List String) (st0 st : ExecState),
      execLoop runFn incoming order st0 = Except.ok st →
      ∀ pr ∈ st.outputs, pr ∈ st0.outputs ∨
        ∃ ins, (pr.1, ins) ∈ st.calls ∧ runFn pr.1 ins = StageRunResult.ref pr.2 := by
  intro order
  induction order with
  | nil =>
    intro st0 st h pr hpr
    simp only [execLoop] at h
    injection h with h
    subst h
    exact Or.inl hpr
  | cons s rest ih =>
    intro st0 st h pr hpr
    simp only [execLoop] at h
    split at h
    · cases h
    · rename_i ins hg
      split at h
      · cases h
      · rename_i r hr
        rcases ih _ _ h pr hpr with hin | hnew
        · rcases List.mem_append.mp hin with hold | hthis
          · exact Or.inl hold
          · have hps : pr = (s, r) := by simpa using hthis
            subst hps
            refine Or.inr ⟨ins, ?_, hr⟩
            obtain ⟨_, _, nC, _, _, hC, _, _, _⟩ := execLoop_ok runFn incoming rest _ _ h
            have hcalls : st.calls = st0.calls ++ ((s, ins) :: nC) := by
              simpa [List.append_assoc] using hC
            rw [hcalls]
            exact List.mem_append_right _ (List.mem_cons_self _ _)
        · exact Or.inr hnew

theorem dictKeysAux_subset :
    ∀ (us seen : List String) (v : String), v ∈ dictKeysAux us seen → v ∈ us := by
  intro us
  induction us with
  | nil => intro seen v h; simp [dictKeysAux] at h
  | cons u us ih =>
    intro seen v h
    simp only [dictKeysAux] at h
    split at h
    · exact List.mem_cons_of_mem _ (ih seen v h)
    · rcases List.mem_cons.mp h with h | h
      · simp [h]
      · exact List.mem_cons_of_mem _ (ih (u :: seen) v h)

theorem dictKeys_subset {l : List String} {v : String} (h : v ∈ dictKeys l) : v ∈ l :=
  dictKeysAux_subset l [] v h

theorem mem_sourcesInto {edges : List PipelineEdge} {t v : String}
    (h : v ∈ sourcesInto edges t) : ∃ e ∈ edges, e.source = v ∧ e.target = t := by
  unfold sourcesInto at h
  obtain ⟨e, he, hev⟩ := List.mem_map.mp h
  have hm := List.mem_filter.mp he
  exact ⟨e, hm.1, hev, by simpa using hm.2⟩

theorem topological_order_ok_shape (spec : GraphSpec)
    {o : List String} {a i : String → List String}
    (h : topological_order spec = Except.ok (o, a, i)) :
    o = kahnOrder spec ∧ a = targetsFrom spec.edges ∧ i = sourcesInto spec.edges := by
  unfold topological_order at h
  split at h
  case isFalse => cases h
  split at h
  case isFalse => cases h
  refine ⟨?_, ?_, ?_⟩
  · have := congrArg (fun x => match x with
      | Except.ok (o2, _, _) => o2
      | Except.error _ => o) h
    simpa using this.symm
  · have := congrArg (fun x => match x with
      | Except.ok (_, a2, _) => a2
      | Except.error _ => a) h
    simpa using this.symm
  · have := congrArg (fun x => match x with
      | Except.ok (_, _, i2) => i2
      | Except.error _ => i) h
    simpa using this.symm

/-- One successful iteration of the stage loop, as a rewriting equation. -/
theorem execLoop_cons_ok (runFn : String → List (String × DatasetRef) → StageRunResult)
    (incoming : String → List String) (s : String) (rest : List String)
    (st : ExecState) (ins : List (String × DatasetRef)) (r : DatasetRef)
    (hg : gatherInputs st.outputs (dictKeys (incoming s)) = some ins)
    (hr : runFn s ins = StageRunResult.ref r) :
    execLoop runFn incoming (s :: rest) st =
      execLoop runFn incoming rest
        ⟨st.outputs ++ [(s, r)], st.metrics ++ [⟨s, ins.length, r.uri, r.format⟩],
          st.calls ++ [(s, ins)]⟩ := by
  simp only [execLoop, hg, hr]

/-- Data-flow soundness of a successful `run_dataset_pipeline` execution, in
terms of the ghost call trace: every stage call is a stage of the resolved
order (which is duplicate-free, so each stage runs at most once); its inputs
dict is keyed by exactly its incoming stage ids; and every input value is the
output produced by that upstream's own (strictly earlier) invocation. -/
theorem dataset_dataflow (spec : GraphSpec)
    (runFn : String → List (String × DatasetRef) → StageRunResult)
    (res : DatasetPipelineResult)
    (trace : List (String × List (String × DatasetRef)))
    (hnd : spec.stages.Nodup)
    (hok : run_dataset_pipeline_instrumented spec runFn = Except.ok (res, trace)) :
    trace.map Prod.fst = res.execution_order ∧
    res.execution_order.Nodup ∧
    (∀ p ∈ trace, p.2.map Prod.fst = dictKeys (sourcesInto spec.edges p.1) ∧
      ∀ q ∈ p.2,
        (∃ ins, (q.1, ins) ∈ trace ∧ runFn q.1 ins = StageRunResult.ref q.2) ∧
        res.execution_order.indexOf q.1 < res.execution_order.indexOf p.1) := by
  unfold run_dataset_pipeline_instrumented at hok
  split at hok
  next e heq => cases hok
  next order adjacency incoming hto =>
    split at hok
    next e heq => cases hok
    next st hloop =>
      split at hok
      next leaf hleaf =>
        split at hok
        next out hout =>
          injection hok with hok
          have hres : res = ⟨out, st.metrics, order⟩ := by
            have := congrArg Prod.fst hok
            simpa using this.symm
          have htr : trace = st.calls := by
            have := congrArg Prod.snd hok
            simpa using this.symm
          obtain ⟨-, -, hinc⟩ := topological_order_ok_shape spec hto
          have hsound := topological_order_sound spec hnd order adjacency incoming hto
          obtain ⟨nO, nM, nC, hO, hM, hC, hfO, hfM, hfC⟩ :=
            execLoop_ok runFn incoming order _ _ hloop
          subst hres htr hinc
          refine ⟨?_, hsound.2.1, ?_⟩
          · simpa [hC] using hfC
          · intro p hp
            rcases execLoop_calls runFn _ order _ _ hloop p hp with hin | hnew
            · simp at hin
            · refine ⟨hnew.2.1, ?_⟩
              intro q hq
              have hlk := hnew.2.2 q hq
              have hmem := lookupOut_mem hlk
              rcases execLoop_outputs runFn _ order _ _ hloop (q.1, q.2) hmem with h0 | hx
              · simp at h0
              · refine ⟨hx, ?_⟩
                have hq1 : q.1 ∈ dictKeys (sourcesInto spec.edges p.1) := by
                  rw [← hnew.2.1]
                  exact List.mem_map_of_mem Prod.fst hq
                have hq2 := dictKeys_subset hq1
                obtain ⟨e, he, hes, het⟩ := mem_sourcesInto hq2
                have hedge := (hsound.2.2.2 e he).2.2
                rw [hes, het] at hedge
                exact hedge
        next hout => cases hok
      next x hleaf => cases hok

/-- The tie-break scenario graph: two roots declared `[root_a, root_b]`
feeding a `join` stage. -/
def forkJoinSpec : GraphSpec :=
  ⟨["root_a", "root_b", "join"], [⟨"root_a", "join"⟩, ⟨"root_b", "join"⟩]⟩

/-- On `forkJoinSpec`, with stages that return `DatasetRef`s, the resolver
emits `[root_a, root_b, join]` and the executor calls `join` exactly once,
with the inputs dict `{root_a: out_a, root_b: out_b}`. -/
theorem forkJoin_run (runFn : String → List (String × DatasetRef) → StageRunResult)
    (htotal : ∀ s ins, runFn s ins ≠ StageRunResult.notRef) :
    ∃ rA rB rJ,
      runFn "root_a" [] = StageRunResult.ref rA ∧
      runFn "root_b" [] = StageRunResult.ref rB ∧
      runFn "join" [("root_a", rA), ("root_b", rB)] = StageRunResult.ref rJ ∧
      run_dataset_pipeline_instrumented forkJoinSpec runFn =
        Except.ok (⟨rJ,
          [⟨"root_a", 0, rA.uri, rA.format⟩, ⟨"root_b", 0, rB.uri, rB.format⟩,
            ⟨"join", 2, rJ.uri, rJ.format⟩],
          ["root_a", "root_b", "join"]⟩,
          [("root_a", []), ("root_b", []),
            ("join", [("root_a", rA), ("root_b", rB)])]) := by
  cases h1 : runFn "root_a" [] with
  | notRef => exact absurd h1 (htotal _ _)
  | ref rA =>
  cases h2 : runFn "root_b" [] with
  | notRef => exact absurd h2 (htotal _ _)
  | ref rB =>
  cases h3 : runFn "join" [("root_a", rA), ("root_b", rB)] with
  | notRef => exact absurd h3 (htotal _ _)
  | ref rJ =>
  refine ⟨rA, rB, rJ, rfl, rfl, h3, ?_⟩
  have hto : topological_order forkJoinSpec =
      Except.ok (["root_a", "root_b", "join"],
        targetsFrom forkJoinSpec.edges, sourcesInto forkJoinSpec.edges) := rfl
  have e1 := execLoop_cons_ok runFn (sourcesInto forkJoinSpec.edges)
    "root_a" ["root_b", "join"] ⟨[], [], []⟩ [] rA rfl h1
  have e2 := execLoop_cons_ok runFn (sourcesInto forkJoinSpec.edges)
    "root_b" ["join"]
    ⟨[("root_a", rA)], [⟨"root_a", 0, rA.uri, rA.format⟩], [("root_a", [])]⟩ [] rB rfl h2
  have e3 := execLoop_cons_ok runFn (sourcesInto forkJoinSpec.edges)
    "join" []
    ⟨[("root_a", rA), ("root_b", rB)],
      [⟨"root_a", 0, rA.uri, rA.format⟩, ⟨"root_b", 0, rB.uri, rB.format⟩],
      [("root_a", []), ("root_b", [])]⟩
    [("root_a", rA), ("root_b", rB)] rJ rfl h3
  simp only [List.nil_append, List.length_nil] at e1
  simp only [List.cons_append, List.nil_append, List.length_nil] at e2 e3
  unfold run_dataset_pipeline_instrumented
  simp only [hto]
  rw [e1, e2, e3]
  simp only [execLoop]
  rfl

/-- C2: For the spec `[root_a, root_b, join]` with edges `root_a→join` and
`root_b→join`, the resolved execution order is exactly
`[root_a, root_b, join]` (stage-declaration order breaks the tie between the
two in-degree-0 roots) and the executor invokes `join` once, with an inputs
dict holding exactly the entries for `root_a` and `root_b`, each keyed by the
upstream stage id and holding that upstream's recorded output; and in
general, on any successful dataset run over duplicate-free stage ids, each
stage is invoked at most once and only with outputs its upstreams produced at
strictly earlier positions of the execution order. -/
theorem C2_tie_break_and_dataflow :
    (∀ runFn : String → List (String × DatasetRef) → StageRunResult,
      (∀ s ins, runFn s ins ≠ StageRunResult.notRef) →
      ∃ rA rB rJ,
        runFn "root_a" [] = StageRunResult.ref rA ∧
        runFn "root_b" [] = StageRunResult.ref rB ∧
        runFn "join" [("root_a", rA), ("root_b", rB)] = StageRunResult.ref rJ ∧
        run_dataset_pipeline_instrumented forkJoinSpec runFn =
          Except.ok (⟨rJ,
            [⟨"root_a", 0, rA.uri, rA.format⟩, ⟨"root_b", 0, rB.uri, rB.format⟩,
              ⟨"join", 2, rJ.uri, rJ.format⟩],
            ["root_a", "root_b", "join"]⟩,
            [("root_a", []), ("root_b", []),
              ("join", [("root_a", rA), ("root_b", rB)])])) ∧
    (∀ (spec : GraphSpec) (runFn : String → List (String × DatasetRef) → StageRunResult)
        (res : DatasetPipelineResult)
        (trace : List (String × List (String × DatasetRef))),
      spec.stages.Nodup →
      run_dataset_pipeline_instrumented spec runFn = Except.ok (res, trace) →
      trace.map Prod.fst = res.execution_order ∧
      res.execution_order.Nodup ∧
      (∀ p ∈ trace, p.2.map Prod.fst = dictKeys (sourcesInto spec.edges p.1) ∧
        ∀ q ∈ p.2,
          (∃ ins, (q.1, ins) ∈ trace ∧ runFn q.1 ins = StageRunResult.ref q.2) ∧
          res.execution_order.indexOf q.1 < res.execution_order.indexOf p.1)) :=
  ⟨forkJoin_run, fun spec runFn res trace hnd hok =>
    dataset_dataflow spec runFn res trace hnd hok⟩

/-- A stage behaviour for witnesses: every stage returns a `DatasetRef` whose
uri is its own stage id. -/
def constRefRunFn : String → List (String × DatasetRef) → StageRunResult :=
  fun s _ => StageRunResult.ref ⟨s, "lance", []⟩

theorem C2_tie_break_and_dataflow_witness :
    (∀ s ins, constRefRunFn s ins ≠ StageRunResult.notRef) ∧
    forkJoinSpec.stages.Nodup ∧
    (∃ rA rB rJ,
      constRefRunFn "join" [("root_a", rA), ("root_b", rB)] = StageRunResult.ref rJ ∧
      run_dataset_pipeline_instrumented forkJoinSpec constRefRunFn =
        Except.ok (⟨rJ,
          [⟨"root_a", 0, rA.uri, rA.format⟩, ⟨"root_b", 0, rB.uri, rB.format⟩,
            ⟨"join", 2, rJ.uri, rJ.format⟩],
          ["root_a", "root_b", "join"]⟩,
          [("root_a", []), ("root_b", []),
            ("join", [("root_a", rA), ("root_b", rB)])])) ∧
    (∃ res trace,
      run_dataset_pipeline_instrumented forkJoinSpec constRefRunFn =
        Except.ok (res, trace) ∧
      trace.map Prod.fst = res.execution_order ∧ res.execution_order.Nodup) := by
  have htot : ∀ s ins, constRefRunFn s ins ≠ StageRunResult.notRef := by
    intro s ins h
    simp [constRefRunFn] at h
  refine ⟨htot, by decide, ?_, ?_⟩
  · obtain ⟨rA, rB, rJ, _, _, h3, hrun⟩ := C2_tie_break_and_dataflow.1 constRefRunFn htot
    exact ⟨rA, rB, rJ, h3, hrun⟩
  · have h := C2_tie_break_and_dataflow.2 forkJoinSpec constRefRunFn _ _ (by decide) rfl
    exact ⟨_, _, rfl, h.1, h.2.1⟩

/-- C7: After the stage loop of `run_dataset_pipeline` has run every stage
(`hloop`), the executor collects the out-degree-0 stages of the adjacency
dict (in stage-declaration order); if their number is not exactly one it
raises `ValueError("Dataset pipeline execution requires exactly one leaf
stage")`, and otherwise it returns the output recorded for the unique
out-degree-0 stage together with the full per-stage metrics list (one entry
per stage, in execution order) and the execution order. -/
theorem C7_unique_leaf_check (spec : GraphSpec)
    (runFn : String → List (String × DatasetRef) → StageRunResult)
    (order : List String) (adj inc : String → List String) (st : ExecState)
    (hnd : spec.stages.Nodup)
    (hto : topological_order spec = Except.ok (order, adj, inc))
    (hloop : execLoop runFn inc order ⟨[], [], []⟩ = Except.ok st) :
    st.metrics.map StageMetric.stage_id = order ∧
    ((spec.stages.filter (fun s => (adj s).isEmpty)).length ≠ 1 →
      run_dataset_pipeline spec runFn = Except.error ExecError.ambiguousLeaf) ∧
    (∀ leaf, spec.stages.filter (fun s => (adj s).isEmpty) = [leaf] →
      ∃ out, lookupOut st.outputs leaf = some out ∧
        run_dataset_pipeline spec runFn = Except.ok ⟨out, st.metrics, order⟩) := by
  obtain ⟨nO, nM, nC, hO, hM, hC, hfO, hfM, hfC⟩ := execLoop_ok runFn inc order _ _ hloop
  have hmet : st.metrics.map StageMetric.stage_id = order := by
    rw [hM]
    simpa using hfM
  refine ⟨hmet, ?_, ?_⟩
  · intro hne
    unfold run_dataset_pipeline run_dataset_pipeline_instrumented
    simp only [hto, hloop]
    cases hl : spec.stages.filter (fun s => (adj s).isEmpty) with
    | nil => simp [hl, Except.map]
    | cons x t =>
      cases t with
      | nil => exact absurd (by rw [hl]; rfl) hne
      | cons y t2 => simp [hl, Except.map]
  · intro leaf hleaf
    have hsound := topological_order_sound spec hnd order adj inc hto
    have hlmem : leaf ∈ spec.stages := by
      have : leaf ∈ spec.stages.filter (fun s => (adj s).isEmpty) := by
        rw [hleaf]
        simp
      exact (List.mem_filter.mp this).1
    have hlord : leaf ∈ order := (hsound.1 leaf).mpr hlmem
    have hlkeys : leaf ∈ st.outputs.map Prod.fst := by
      rw [hO]
      simpa [hfO] using hlord
    obtain ⟨out, hout⟩ := lookupOut_isSome_of_mem_keys hlkeys
    refine ⟨out, hout, ?_⟩
    unfold run_dataset_pipeline run_dataset_pipeline_instrumented
    simp only [hto, hloop, hleaf, hout]
    simp [Except.map]

/-- A fan-out graph with two out-degree-0 stages, used to witness the
`AmbiguousSink` branch of C7. -/
def diamondSpec : GraphSpec :=
  ⟨["a", "b", "c"], [⟨"a", "b"⟩, ⟨"a", "c"⟩]⟩

theorem C7_unique_leaf_check_witness :
    run_dataset_pipeline diamondSpec constRefRunFn = Except.error ExecError.ambiguousLeaf ∧
    (∃ r, run_dataset_pipeline chainSpec constRefRunFn = Except.ok r ∧
      r.execution_order = ["s1", "s2", "s3"]) := by
  constructor
  · exact (C7_unique_leaf_check diamondSpec constRefRunFn _ _ _ _
      (by decide) rfl rfl).2.1 (by decide)
  · obtain ⟨out, _, hrun⟩ := (C7_unique_leaf_check chainSpec constRefRunFn _ _ _ _
      (by decide) rfl rfl).2.2 "s3" rfl
    exact ⟨_, hrun, rfl⟩

/-! ## The spec validator (`PipelineSpecDocument.validate_linear_chain`) -/

/-- The slice of `PipelineSpecDocument` that `validate_linear_chain` reads and
writes: the declared stage ids (the validator only touches `stage.stage_id`)
and the declared edges. -/
structure PipelineSpecDoc where
  stages : List String
  edges : List PipelineEdge
deriving DecidableEq, Repr

/-- `outdegree[v]` as counted by the validator's degree loop. -/
def outdegCount (edges : List PipelineEdge) (v : String) : Nat :=
  (edges.filter (fun e => e.source == v)).length

/-- `indegree[v]` as counted by the validator's degree loop. -/
def indegCount (edges : List PipelineEdge) (v : String) : Nat :=
  (edges.filter (fun e => e.target == v)).length

/-- The chain of edges synthesized when a multi-stage linear spec supplies no
edges: consecutive declared stages are linked in declaration order. -/
def chainEdges : List String → List PipelineEdge
  | [] => []
  | [_] => []
  | a :: b :: rest => ⟨a, b⟩ :: chainEdges (b :: rest)

/-- The edge list the validator works with after the optional synthesis step
(`if not self.edges and len(self.stages) > 1`). -/
def synthesizedEdges (doc : PipelineSpecDoc) : List PipelineEdge :=
  if doc.edges = [] ∧ 1 < doc.stages.length then chainEdges doc.stages else doc.edges

/-- `PipelineSpecDocument.validate_linear_chain` from
`app/schemas/pipeline_spec.py`, exactly as in the source: non-empty stages,
unique ids, optional chain synthesis, single-stage early return with the edge
list reset to `[]`, the N-1 edge-count check, known endpoints, exactly one
root and one leaf, no fan-in/out, and finally the requirement that the
Kahn topological order equal the declared stage order. -/
def validate_linear_chain (doc : PipelineSpecDoc) : Except String PipelineSpecDoc :=
  if doc.stages = [] then
    Except.error "Pipeline must define at least one stage"
  else if ¬ doc.stages.Nodup then
    Except.error "Stage IDs must be unique"
  else if doc.stages.length = 1 then
    Except.ok { doc with edges := [] }
  else if (synthesizedEdges doc).length ≠ doc.stages.length - 1 then
    Except.error "Linear pipelines require exactly N-1 edges"
  else if ¬ (synthesizedEdges doc).all
      (fun e => doc.stages.contains e.source && doc.stages.contains e.target) then
    Except.error "All edges must reference known stage IDs"
  else if (doc.stages.filter (fun v => indegCount (synthesizedEdges doc) v == 0)).length ≠ 1
      ∨ (doc.stages.filter (fun v => outdegCount (synthesizedEdges doc) v == 0)).length ≠ 1 then
    Except.error "Linear pipeline must have exactly one root and one leaf"
  else if ¬ doc.stages.all (fun v =>
      decide (indegCount (synthesizedEdges doc) v ≤ 1)
        && decide (outdegCount (synthesizedEdges doc) v ≤ 1)) then
    Except.error "Linear pipeline cannot fan-out or fan-in"
  else if kahnOrder ⟨doc.stages, synthesizedEdges doc⟩ ≠ doc.stages then
    Except.error "Stage order must match topological order for linear execution"
  else
    Except.ok { doc with edges := synthesizedEdges doc }

/-- Modelled from the spec: the `data_model == "dataset"` gate of
`PipelineSpecDocument.validate_linear_chain` is missing from the copy of
`app/schemas/pipeline_spec.py` in this tree (which predates the `data_model`
field that `runner.py` and the schema tests reference), so the dag-mode
validation path is modelled from §4.1 of the specification: dag mode skips
the fan-in/out, root/leaf and order-equality checks but still requires unique
ids, known edge endpoints, and that Kahn resolution succeed (acyclicity). -/
def validate_dataset_graph (doc : PipelineSpecDoc) : Except String PipelineSpecDoc :=
  if doc.stages = [] then
    Except.error "Pipeline must define at least one stage"
  else if ¬ doc.stages.Nodup then
    Except.error "Stage IDs must be unique"
  else if ¬ doc.edges.all
      (fun e => doc.stages.contains e.source && doc.stages.contains e.target) then
    Except.error "All edges must reference known stage IDs"
  else if (kahnOrder ⟨doc.stages, doc.edges⟩).length ≠ doc.stages.length then
    Except.error "Pipeline graph is not acyclic"
  else
    Except.ok doc

/-- The fan-out spec of the claim: 3 stages, edges `{s1→s2, s1→s3}`. -/
def fanOutDoc : PipelineSpecDoc :=
  ⟨["s1", "s2", "s3"], [⟨"s1", "s2"⟩, ⟨"s1", "s3"⟩]⟩

/-- C5: The 3-stage fan-out spec `{s1→s2, s1→s3}` is rejected by spec
validation on the linear path (it fails the one-root/one-leaf check) but is
accepted by dag-mode validation, which only requires known endpoints and
acyclicity. -/
theorem C5_fan_out_linear_vs_dag :
    validate_linear_chain fanOutDoc =
      Except.error "Linear pipeline must have exactly one root and one leaf" ∧
    validate_dataset_graph fanOutDoc = Except.ok fanOutDoc := by
  constructor <;> rfl

/-- The checks of the linear validation path that precede the order-equality
check, for a multi-stage document. -/
def linearPriorChecks (doc : PipelineSpecDoc) : Prop :=
  doc.stages ≠ [] ∧ doc.stages.Nodup ∧ 1 < doc.stages.length ∧
  (synthesizedEdges doc).length = doc.stages.length - 1 ∧
  (synthesizedEdges doc).all
    (fun e => doc.stages.contains e.source && doc.stages.contains e.target) = true ∧
  (doc.stages.filter (fun v => indegCount (synthesizedEdges doc) v == 0)).length = 1 ∧
  (doc.stages.filter (fun v => outdegCount (synthesizedEdges doc) v == 0)).length = 1 ∧
  doc.stages.all (fun v =>
    decide (indegCount (synthesizedEdges doc) v ≤ 1)
      && decide (outdegCount (synthesizedEdges doc) v ≤ 1)) = true

/-- C6: On the linear path, for any multi-stage document that passes every
check before the order check, validation succeeds exactly when the computed
Kahn topological order equals the declared stage list, and otherwise fails
with the order-mismatch error — even for acyclic, unambiguous edge sets. -/
theorem C6_declared_order_must_match_topo (doc : PipelineSpecDoc)
    (h : linearPriorChecks doc) :
    (kahnOrder ⟨doc.stages, synthesizedEdges doc⟩ = doc.stages →
      validate_linear_chain doc = Except.ok { doc with edges := synthesizedEdges doc }) ∧
    (kahnOrder ⟨doc.stages, synthesizedEdges doc⟩ ≠ doc.stages →
      validate_linear_chain doc =
        Except.error "Stage order must match topological order for linear execution") := by
  obtain ⟨h1, h2, h3, h4, h5, h6, h7, h8⟩ := h
  have hne1 : ¬ doc.stages.length = 1 := by omega
  constructor
  · intro htopo
    unfold validate_linear_chain
    rw [if_neg h1, if_neg (not_not_intro h2), if_neg hne1, if_neg (by omega),
      if_neg (not_not_intro h5), if_neg (by simp [h6, h7]), if_neg (not_not_intro h8),
      if_neg (not_not_intro htopo)]
  · intro htopo
    unfold validate_linear_chain
    rw [if_neg h1, if_neg (not_not_intro h2), if_neg hne1, if_neg (by omega),
      if_neg (not_not_intro h5), if_neg (by simp [h6, h7]), if_neg (not_not_intro h8),
      if_pos htopo]

/-- An acyclic, unambiguous two-stage document declared in reverse dependency
order: the single edge `s1→s2` with declared stage order `[s2, s1]`. -/
def reversedDoc : PipelineSpecDoc := ⟨["s2", "s1"], [⟨"s1", "s2"⟩]⟩

/-- A well-ordered two-stage document accepted by the linear path. -/
def orderedDoc : PipelineSpecDoc := ⟨["s1", "s2"], [⟨"s1", "s2"⟩]⟩

theorem C6_declared_order_must_match_topo_witness :
    validate_linear_chain reversedDoc =
      Except.error "Stage order must match topological order for linear execution" ∧
    validate_linear_chain orderedDoc =
      Except.ok { orderedDoc with edges := orderedDoc.edges } := by
  constructor
  · exact (C6_declared_order_must_match_topo reversedDoc
      ⟨by decide, by decide, by decide, by decide, by decide, by decide, by decide,
        by decide⟩).2 (by decide)
  · have h := (C6_declared_order_must_match_topo orderedDoc
      ⟨by decide, by decide, by decide, by decide, by decide, by decide, by decide,
        by decide⟩).1 (by decide)
    simpa [synthesizedEdges, orderedDoc] using h

/-- C10: Validating a document that declares exactly one stage always resets
its edge list to empty and succeeds: any supplied edges — self-loops or edges
referencing unknown stage ids included — are discarded by the single-stage
early return before the endpoint, degree and order checks run. -/
theorem C10_single_stage_discards_edges (doc : PipelineSpecDoc) (s : String)
    (h : doc.stages = [s]) :
    validate_linear_chain doc = Except.ok { doc with edges := [] } := by
  unfold validate_linear_chain
  rw [if_neg (by simp [h]), if_neg (by simp [h]), if_pos (by simp [h])]

/-- A single-stage document carrying a self-loop and an edge to an undeclared
stage id. -/
def soloDoc : PipelineSpecDoc := ⟨["solo"], [⟨"solo", "solo"⟩, ⟨"ghost", "solo"⟩]⟩

theorem C10_single_stage_discards_edges_witness :
    validate_linear_chain soloDoc = Except.ok ⟨["solo"], []⟩ :=
  C10_single_stage_discards_edges soloDoc "solo" rfl

/-! ## The run lifecycle manager (`PipelineRunnerService`) -/

/-- `PipelineRunStatus` values reachable by `_execute_run`. -/
inductive RunStatus where
  | running
  | succeeded
  | failed
  | stopped
deriving DecidableEq, Repr

/-- The way the body of `_execute_run` terminates: normally, via the
`InterruptedError` cancellation signal (with its message), or via any other
exception (with its message). -/
inductive RunOutcome where
  | completed
  | interrupted (msg : String)
  | failed (msg : String)
deriving DecidableEq, Repr

/-- The `except` ladder of `_execute_run` (lines 196-218 of `runner.py`):
`InterruptedError` is caught first and maps to `STOPPED`; every other
exception maps to `FAILED`; normal completion commits `SUCCEEDED`. -/
def terminalStatus : RunOutcome → RunStatus
  | RunOutcome.completed => RunStatus.succeeded
  | RunOutcome.interrupted _ => RunStatus.stopped
  | RunOutcome.failed _ => RunStatus.failed

/-- The per-stage loop of linear execution: before stage `i` the worker
checks `cancel_event.is_set()` at boundary `i + 1` and raises
`InterruptedError("Run stop requested")` if set; otherwise it builds and runs
the stage, whose outcome is abstracted as entry `i` of `stages` (an
exception message or success). -/
def linearLoop (cancelAt : Nat → Bool) : Nat → List (Except String Unit) → RunOutcome
  | _, [] => RunOutcome.completed
  | k, stage :: rest =>
    if cancelAt k then RunOutcome.interrupted "Run stop requested"
    else
      match stage with
      | Except.error msg => RunOutcome.failed msg
      | Except.ok _ => linearLoop cancelAt (k + 1) rest

/-- The body of `PipelineRunnerService._execute_run` after the run enters
`RUNNING`, as a function of: the spec's `data_model`, the value the
cancellation token shows at each boundary check (check 0 is the pre-execution
check of line 97; in linear mode check `i + 1` precedes stage `i`), the
outcome of `run_dataset_pipeline` (dataset mode), and the per-stage outcomes
(linear mode). -/
def executeRunBody (dataModel : String) (cancelAt : Nat → Bool)
    (datasetRun : Except String Unit) (stages : List (Except String Unit)) :
    RunOutcome :=
  if cancelAt 0 then RunOutcome.interrupted "Run stop requested before execution"
  else if dataModel = "dataset" then
    match datasetRun with
    | Except.error msg => RunOutcome.failed msg
    | Except.ok _ => RunOutcome.completed
  else
    linearLoop cancelAt 1 stages


theorem linearLoop_stopped (cancelAt : Nat → Bool) :
    ∀ (stages : List (Except String Unit)) (k i : Nat),
      i < stages.length →
      (∀ e ∈ stages.take i, e = Except.ok ()) →
      cancelAt (k + i) = true →
      terminalStatus (linearLoop cancelAt k stages) = RunStatus.stopped := by
  intro stages
  induction stages with
  | nil => intro k i hlen; simp at hlen
  | cons stage rest ih =>
    intro k i hlen hok hc
    by_cases hck : cancelAt k = true
    · unfold linearLoop
      rw [if_pos hck]
      rfl
    · cases i with
      | zero => simp at hc; exact absurd hc hck
      | succ j =>
        have hstage : stage = Except.ok () := hok stage (by simp)
        unfold linearLoop
        rw [if_neg (by simp [hck]), hstage]
        exact ih (k + 1) j (by simpa using hlen)
          (fun e he => hok e (by simp [he]))
          (by rw [show k + 1 + j = k + (j + 1) by omega]; exact hc)

theorem linearLoop_failed (cancelAt : Nat → Bool) (hnc : ∀ k, cancelAt k = false) :
    ∀ (stages : List (Except String Unit)) (k i : Nat) (msg : String),
      stages.get? i = some (Except.error msg) →
      (∀ e ∈ stages.take i, e = Except.ok ()) →
      linearLoop cancelAt k stages = RunOutcome.failed msg := by
  intro stages
  induction stages with
  | nil => intro k i msg hget; simp at hget
  | cons stage rest ih =>
    intro k i msg hget hok
    unfold linearLoop
    rw [if_neg (by simp [hnc k])]
    cases i with
    | zero =>
      simp at hget
      rw [hget]
    | succ j =>
      have hstage : stage = Except.ok () := hok stage (by simp)
      rw [hstage]
      exact ih (k + 1) j msg (by simpa using hget) (fun e he => hok e (by simp [he]))

theorem linearLoop_completed (cancelAt : Nat → Bool) (hnc : ∀ k, cancelAt k = false) :
    ∀ (stages : List (Except String Unit)) (k : Nat),
      (∀ e ∈ stages, e = Except.ok ()) →
      linearLoop cancelAt k stages = RunOutcome.completed := by
  intro stages
  induction stages with
  | nil => intro k _; rfl
  | cons stage rest ih =>
    intro k hok
    have hstage : stage = Except.ok () := hok stage (by simp)
    unfold linearLoop
    rw [if_neg (by simp [hnc k]), hstage]
    exact ih (k + 1) (fun e he => hok e (by simp [he]))

/-- C3: If `request_stop` sets the cancellation token before the worker
reaches its next stage boundary — the pre-execution check in dataset mode, or
the check before stage `i` in linear mode — the run reaches the terminal
state `STOPPED` (via the distinguished `InterruptedError` signal with one of
the two cancellation messages), not `SUCCEEDED` and not `FAILED`; and when no
boundary check observes the token, any other exception (from
`run_dataset_pipeline` or from a stage) yields `FAILED` with the captured
message, while normal completion yields `SUCCEEDED`. -/
theorem C3_cooperative_stop (dataModel : String) (cancelAt : Nat → Bool)
    (datasetRun : Except String Unit) (stages : List (Except String Unit)) :
    (cancelAt 0 = true →
      executeRunBody dataModel cancelAt datasetRun stages =
        RunOutcome.interrupted "Run stop requested before execution" ∧
      terminalStatus (executeRunBody dataModel cancelAt datasetRun stages) =
        RunStatus.stopped) ∧
    (∀ i, dataModel ≠ "dataset" → i < stages.length →
      (∀ e ∈ stages.take i, e = Except.ok ()) → cancelAt (i + 1) = true →
      terminalStatus (executeRunBody dataModel cancelAt datasetRun stages) =
        RunStatus.stopped) ∧
    ((∀ k, cancelAt k = false) →
      (dataModel = "dataset" → ∀ msg, datasetRun = Except.error msg →
        executeRunBody dataModel cancelAt datasetRun stages = RunOutcome.failed msg ∧
        terminalStatus (executeRunBody dataModel cancelAt datasetRun stages) =
          RunStatus.failed) ∧
      (dataModel ≠ "dataset" → ∀ i msg, stages.get? i = some (Except.error msg) →
        (∀ e ∈ stages.take i, e = Except.ok ()) →
        executeRunBody dataModel cancelAt datasetRun stages = RunOutcome.failed msg) ∧
      (dataModel = "dataset" → datasetRun = Except.ok () →
        terminalStatus (executeRunBody dataModel cancelAt datasetRun stages) =
          RunStatus.succeeded) ∧
      (dataModel ≠ "dataset" → (∀ e ∈ stages, e = Except.ok ()) →
        terminalStatus (executeRunBody dataModel cancelAt datasetRun stages) =
          RunStatus.succeeded)) := by
  refine ⟨?_, ?_, ?_⟩
  · intro hc
    unfold executeRunBody
    rw [if_pos hc]
    exact ⟨rfl, rfl⟩
  · intro i hdm hlen hok hc
    unfold executeRunBody
    by_cases hc0 : cancelAt 0 = true
    · rw [if_pos hc0]; rfl
    · rw [if_neg (by simp [hc0]), if_neg hdm]
      exact linearLoop_stopped cancelAt stages 1 i hlen hok
        (by rw [show 1 + i = i + 1 by omega]; exact hc)
  · intro hnc
    refine ⟨?_, ?_, ?_, ?_⟩
    · intro hdm msg hds
      unfold executeRunBody
      rw [if_neg (by simp [hnc 0]), if_pos hdm, hds]
      exact ⟨rfl, rfl⟩
    · intro hdm i msg hget hok
      unfold executeRunBody
      rw [if_neg (by simp [hnc 0]), if_neg hdm]
      exact linearLoop_failed cancelAt hnc stages 1 i msg hget hok
    · intro hdm hds
      unfold executeRunBody
      rw [if_neg (by simp [hnc 0]), if_pos hdm, hds]
      rfl
    · intro hdm hok
      unfold executeRunBody
      rw [if_neg (by simp [hnc 0]), if_neg hdm,
        linearLoop_completed cancelAt hnc stages 1 hok]
      rfl

theorem C3_cooperative_stop_witness :
    (executeRunBody "dataset" (fun _ => true) (Except.ok ()) [] =
      RunOutcome.interrupted "Run stop requested before execution") ∧
    terminalStatus (executeRunBody "records" (fun k => decide (k = 2)) (Except.ok ())
      [Except.ok (), Except.ok ()]) = RunStatus.stopped ∧
    executeRunBody "dataset" (fun _ => false) (Except.error "boom") [] =
      RunOutcome.failed "boom" ∧
    executeRunBody "records" (fun _ => false) (Except.ok ())
      [Except.ok (), Except.error "stage exploded"] =
      RunOutcome.failed "stage exploded" ∧
    terminalStatus (executeRunBody "dataset" (fun _ => false) (Except.ok ()) []) =
      RunStatus.succeeded ∧
    terminalStatus (executeRunBody "records" (fun _ => false) (Except.ok ())
      [Except.ok ()]) = RunStatus.succeeded := by
  refine ⟨?_, ?_, ?_, ?_, ?_, ?_⟩
  · exact ((C3_cooperative_stop "dataset" (fun _ => true) (Except.ok ()) []).1 rfl).1
  · exact (C3_cooperative_stop "records" (fun k => decide (k = 2)) (Except.ok ())
      [Except.ok (), Except.ok ()]).2.1 1 (by decide) (by decide)
      (by intro e he; simpa using he) (by decide)
  · exact (((C3_cooperative_stop "dataset" (fun _ => false) (Except.error "boom")
      []).2.2 (fun _ => rfl)).1 rfl "boom" rfl).1
  · exact ((C3_cooperative_stop "records" (fun _ => false) (Except.ok ())
      [Except.ok (), Except.error "stage exploded"]).2.2 (fun _ => rfl)).2.1
      (by decide) 1 "stage exploded" rfl (by intro e he; simpa using he)
  · exact ((C3_cooperative_stop "dataset" (fun _ => false) (Except.ok ()) []).2.2
      (fun _ => rfl)).2.2.1 rfl rfl
  · exact ((C3_cooperative_stop "records" (fun _ => false) (Except.ok ())
      [Except.ok ()]).2.2 (fun _ => rfl)).2.2.2 (by decide)
      (by intro e he; simpa using he)

/-- The tracking state of `PipelineRunnerService`: the keys of the
`_futures` and `_cancel_flags` dicts, plus — as ghost instrumentation — the
list of run ids ever handed to `self._executor.submit`, in submission
order. -/
structure RunnerState where
  futures : List String
  cancelFlags : List String
  spawned : List String
deriving DecidableEq, Repr

/-- `PipelineRunnerService.submit_run`: under the service lock, a run id that
is already tracked in `_futures` is a no-op; otherwise a cancellation token
is created, the run is handed to the worker pool, and the future is
recorded. -/
def submit_run (st : RunnerState) (run_id : String) : RunnerState :=
  if st.futures.contains run_id then st
  else
    { futures := st.futures ++ [run_id]
    , cancelFlags := st.cancelFlags ++ [run_id]
    , spawned := st.spawned ++ [run_id] }

/-- `PipelineRunnerService.request_stop`: reports whether the run id is
tracked (and, in the source, sets that run's cancellation token). -/
def request_stop (st : RunnerState) (run_id : String) : Bool :=
  st.cancelFlags.contains run_id

/-- C4: `submit_run` is idempotent while a run is in flight: a second call
with the same tracked `run_id` is a no-op, so calling it twice hands the run
to the worker pool exactly once (once when not yet tracked, zero additional
times when already tracked) — never two concurrent workers for one
`run_id`. -/
theorem C4_submit_idempotent (st : RunnerState) (r : String) :
    (r ∈ st.futures → submit_run st r = st) ∧
    submit_run (submit_run st r) r = submit_run st r ∧
    (submit_run (submit_run st r) r).spawned.count r =
      st.spawned.count r + (if r ∈ st.futures then 0 else 1) := by
  have htracked : ∀ s : RunnerState, r ∈ s.futures → submit_run s r = s := by
    intro s hs
    unfold submit_run
    rw [if_pos (List.elem_iff.mpr hs)]
  by_cases hr : r ∈ st.futures
  · have h1 := htracked st hr
    refine ⟨fun _ => h1, by rw [h1, h1], ?_⟩
    rw [h1, h1, if_pos hr]
    simp
  · have h1 : submit_run st r =
        ⟨st.futures ++ [r], st.cancelFlags ++ [r], st.spawned ++ [r]⟩ := by
      unfold submit_run
      rw [if_neg (by simpa using hr)]
    have h2 : submit_run (submit_run st r) r = submit_run st r := by
      apply htracked
      rw [h1]
      simp
    refine ⟨fun hmem => absurd hmem hr, h2, ?_⟩
    rw [h2, h1, if_neg hr]
    simp

theorem C4_submit_idempotent_witness :
    submit_run ⟨["run-1"], ["run-1"], ["run-1"]⟩ "run-1" =
      ⟨["run-1"], ["run-1"], ["run-1"]⟩ ∧
    (submit_run (submit_run ⟨[], [], []⟩ "run-1") "run-1").spawned.count "run-1"
      = 1 := by
  constructor
  · exact (C4_submit_idempotent ⟨["run-1"], ["run-1"], ["run-1"]⟩ "run-1").1 (by decide)
  · have h := (C4_submit_idempotent ⟨[], [], []⟩ "run-1").2.2
    simpa using h

/-! ## Linear stage executors (`build_stage_executor`) -/

/-- Python values as seen by the `_runner` closure of
`build_stage_executor`: `None`, a list, or any other value (represented here
by strings and ints). -/
inductive PyVal where
  | vNone
  | vList (items : List PyVal)
  | vStr (s : String)
  | vInt (n : Int)

/-- The result coercion of `_runner` in `build_stage_executor`:
`None → []`; a non-list value `r → [r]`; a list is returned unchanged. -/
def coerce_stage_output : PyVal → List PyVal
  | PyVal.vNone => []
  | PyVal.vList items => items
  | v => [v]

/-- The `run` function of the `StageExecutor` built by
`build_stage_executor`: call the stage's `process_data` and coerce its
result to a list. -/
def stage_executor_run (process_data : List PyVal → PyVal) (data : List PyVal) :
    List PyVal :=
  coerce_stage_output (process_data data)

/-- C9: The run function built by `build_stage_executor` always yields a
list (its result type here is `List PyVal`): a `None` result becomes the
empty list, a non-list result `r` becomes the one-element list `[r]`, and a
list result is passed through — so every downstream stage of a linear run
receives a list. -/
theorem C9_stage_executor_always_list (process_data : List PyVal → PyVal)
    (data : List PyVal) :
    (process_data data = PyVal.vNone → stage_executor_run process_data data = []) ∧
    (∀ xs, process_data data = PyVal.vList xs →
      stage_executor_run process_data data = xs) ∧
    (process_data data ≠ PyVal.vNone →
      (∀ xs, process_data data ≠ PyVal.vList xs) →
      stage_executor_run process_data data = [process_data data]) := by
  refine ⟨?_, ?_, ?_⟩
  · intro h
    unfold stage_executor_run
    rw [h]
    rfl
  · intro xs h
    unfold stage_executor_run
    rw [h]
    rfl
  · intro hn hl
    unfold stage_executor_run
    cases hv : process_data data with
    | vNone => exact absurd hv hn
    | vList xs => exact absurd hv (hl xs)
    | vStr s => rfl
    | vInt n => rfl

theorem C9_stage_executor_always_list_witness :
    stage_executor_run (fun _ => PyVal.vNone) [] = [] ∧
    stage_executor_run (fun _ => PyVal.vList [PyVal.vStr "a"]) [] = [PyVal.vStr "a"] ∧
    stage_executor_run (fun _ => PyVal.vStr "r") [] = [PyVal.vStr "r"] := by
  refine ⟨?_, ?_, ?_⟩
  · exact (C9_stage_executor_always_list (fun _ => PyVal.vNone) []).1 rfl
  · exact (C9_stage_executor_always_list (fun _ => PyVal.vList [PyVal.vStr "a"]) []).2.1
      [PyVal.vStr "a"] rfl
  · exact (C9_stage_executor_always_list (fun _ => PyVal.vStr "r") []).2.2
      (fun h => PyVal.noConfusion h) (fun xs h => PyVal.noConfusion h)

/-! ## The log store (`RunLogStore`) -/

/-- `RunLogStore.append` on one run's buffer: Python's
`deque(maxlen=max_lines)` appends on the right and evicts from the left once
at capacity; `run_log_store` is constructed with the default
`max_lines = 2000`. -/
def logAppend (maxLines : Nat) (buf : List String) (line : String) : List String :=
  (buf ++ [line]).drop (buf.length + 1 - maxLines)

/-- `RunLogStore.get_since` on one run's buffer: `cursor >= len(lines)`
returns `([], len(lines))` without error; otherwise `lines[cursor:]` with the
current length as the next cursor.  Buffers of distinct run ids live in a
`defaultdict` and are independent, so one run's buffer is a function of the
lines appended for that run. -/
def get_since (buf : List String) (cursor : Nat) : List String × Nat :=
  if buf.length ≤ cursor then ([], buf.length)
  else (buf.drop cursor, buf.length)

/-- The retained buffer of a run after appending `hist` in order, starting
from the empty buffer. -/
def runAppends (maxLines : Nat) (hist : List String) : List String :=
  hist.foldl (logAppend maxLines) []

theorem length_logAppend (m : Nat) (buf : List String) (line : String) :
    (logAppend m buf line).length = min (buf.length + 1) m := by
  unfold logAppend
  rw [List.length_drop]
  simp
  omega

theorem foldl_logAppend (m : Nat) (hist : List String) :
    ∀ (b : List String), b.length ≤ m →
      hist.foldl (logAppend m) b = (b ++ hist).drop (b.length + hist.length - m) := by
  induction hist with
  | nil =>
    intro b hb
    simp [Nat.sub_eq_zero_of_le hb]
  | cons x t ih =>
    intro b hb
    rw [List.foldl_cons, ih (logAppend m b x) (by rw [length_logAppend]; omega)]
    rw [length_logAppend]
    unfold logAppend
    rw [← List.drop_append_of_le_length (by simp), List.drop_drop]
    have harr : (b ++ [x]) ++ t = b ++ x :: t := by simp
    rw [harr]
    congr 1
    simp only [List.length_cons]
    omega

theorem runAppends_eq (m : Nat) (hist : List String) :
    runAppends m hist = hist.drop (hist.length - m) := by
  unfold runAppends
  rw [foldl_logAppend m hist [] (by simp)]
  simp

/-- C8 counterexample: with the store's default capacity of 2000 lines,
append one line "a" followed by 2000 lines "b" (so the oldest line has been
evicted), then call `get_since` with cursor 1.  The lines appended after
cursor 1 are the 2000 "b" lines, but the call returns only 1999 of them: the
eviction shifted every surviving line one position left, so the cursor-based
read silently skips one line. -/
theorem C8_get_since_eviction_counterexample :
    (get_since (runAppends 2000 ("a" :: List.replicate 2000 "b")) 1).1 ≠
      ("a" :: List.replicate 2000 "b").drop 1 := by
  have hlc : ("a" :: List.replicate 2000 "b").length - 2000 = 1 := by
    rw [List.length_cons, List.length_replicate]
  have hbuf : runAppends 2000 ("a" :: List.replicate 2000 "b")
      = List.replicate 2000 "b" := by
    rw [runAppends_eq, hlc]
    rfl
  rw [hbuf]
  have h1 : (get_since (List.replicate 2000 "b") 1).1
      = List.drop 1 (List.replicate 2000 "b") := by
    unfold get_since
    rw [if_neg (by rw [List.length_replicate]; omega)]
  rw [h1]
  intro h
  have hlen := congrArg List.length h
  rw [List.length_drop, List.length_drop, List.length_replicate,
    List.length_cons, List.length_replicate] at hlen
  omega

/-- C8 (amended): `get_since(run_id, cursor)` always returns the buffer's
current length as the next cursor; whenever `cursor ≥ length` it returns an
empty list without error; and it returns exactly the lines appended after
`cursor` for every interleaving in which at most `max_lines = 2000` lines
have ever been appended for that run (i.e. before any eviction).  After
eviction the returned list is the suffix of the retained buffer, not of the
full append history (see the counterexample). -/
theorem C8_get_since_cursor (hist : List String) (cursor : Nat) :
    ((runAppends 2000 hist).length ≤ cursor →
      get_since (runAppends 2000 hist) cursor = ([], (runAppends 2000 hist).length)) ∧
    ((get_since (runAppends 2000 hist) cursor).2 = (runAppends 2000 hist).length) ∧
    (hist.length ≤ 2000 →
      get_since (runAppends 2000 hist) cursor = (hist.drop cursor, hist.length)) := by
  refine ⟨?_, ?_, ?_⟩
  · intro h
    unfold get_since
    rw [if_pos h]
  · unfold get_since
    split <;> rfl
  · intro h
    have hbuf : runAppends 2000 hist = hist := by
      rw [runAppends_eq, Nat.sub_eq_zero_of_le h]
      rfl
    rw [hbuf]
    unfold get_since
    split
    · rename_i hc
      rw [List.drop_eq_nil_of_le hc]
    · rfl

theorem C8_get_since_cursor_witness :
    get_since (runAppends 2000 ["x"]) 5 = ([], 1) ∧
    (get_since (runAppends 2000 ["x"]) 0).2 = 1 ∧
    get_since (runAppends 2000 ["x", "y"]) 1 = (["y"], 2) := by
  refine ⟨?_, ?_, ?_⟩
  · have h := (C8_get_since_cursor ["x"] 5).1 (by decide)
    simpa using h
  · have h := (C8_get_since_cursor ["x"] 0).2.1
    simpa using h
  · exact (C8_get_since_cursor ["x", "y"] 1).2.2 (by decide)
